import Mathlib

/-!
Verification of the defs-summary core of the RimSort fork
(`app/utils/defs_summary.py`) and the startup-impact metrics reader
(`app/utils/startup_impact_metrics.py`).

Shallow embedding conventions:
- Python strings are modelled as `List Char` (`Str`); `str.lower()` is
  `Char.toLower` mapped over the characters (the names compared by the code
  are ASCII, where the two agree).
- A directory tree is `Dir`; `os.scandir` order is the order of the
  `subdirs` / `files` lists.  A possibly missing mod root is `Option Dir`
  (`none` models a path whose `os.scandir` raises `FileNotFoundError`).
- The XML library is the external capability "parse file -> tree of tagged
  nodes, or fail": each file carries `parse : Option Xml`, `none` meaning
  `ET.parse` raises.  `stat` is modelled by `statOk`/`mtime`; `statOk = false`
  means `Path.stat()` raises.  Modification times are rationals (the code
  uses non-negative floats; only ordering and equality matter here).
-/

namespace RimSort

/-- Python `str` as a character list. -/
abbrev Str := List Char

/-- Python `s.lower()` (ASCII case folding, which is all the code compares). -/
def strLower (s : Str) : Str := s.map Char.toLower

/-- Python `s.strip()`: drop whitespace from both ends. -/
def pyStrip (s : Str) : Str :=
  ((s.dropWhile Char.isWhitespace).reverse.dropWhile Char.isWhitespace).reverse

/-- Python `int(digits)` on a run of decimal digits. -/
def digitsToNat (ds : Str) : Nat :=
  ds.foldl (fun a c => a * 10 + (c.toNat - ('0').toNat)) 0

/-- Python dictionary store `m[k] = v` over an insertion-ordered
association list: overwrite the value of an existing key, else append. -/
def pyDictInsert {α β : Type} [DecidableEq α] (m : List (α × β)) (k : α) (v : β) :
    List (α × β) :=
  if m.any (fun p => p.1 = k) then
    m.map (fun p => if p.1 = k then (k, v) else p)
  else m ++ [(k, v)]

/-- Python dictionary lookup `m.get(k)`. -/
def pyDictFind {α β : Type} [DecidableEq α] (m : List (α × β)) (k : α) : Option β :=
  (m.find? (fun p => p.1 = k)).map (fun p => p.2)

/-- Python `m.keys()`. -/
def pyDictKeys {α β : Type} (m : List (α × β)) : List α :=
  m.map (fun p => p.1)

/-- `_strip_ns(tag)`: strip an XML `\x7bnamespace\x7d` prefix, returning the
local name; empty tags and tags without a closing brace are returned as is. -/
def stripNs : Str → Str
  | [] => []
  | '{' :: rest =>
      if rest.contains '}' then (rest.dropWhile (fun c => c ≠ '}')).tail
      else '{' :: rest
  | c :: rest => c :: rest

/- An XML element: tag, text, attributes, children (mutual with the spine of
its child list so that all recursion stays structural). -/
mutual
inductive Xml where
  | elem (tag : Str) (text : Str) (attrs : List (Str × Str)) (children : XmlList)
  deriving DecidableEq
inductive XmlList where
  | nil
  | cons (x : Xml) (xs : XmlList)
  deriving DecidableEq
end

def XmlList.toList : XmlList → List Xml
  | .nil => []
  | .cons x xs => x :: xs.toList

def XmlList.ofList : List Xml → XmlList
  | [] => .nil
  | x :: xs => .cons x (XmlList.ofList xs)

def Xml.tag : Xml → Str
  | .elem t _ _ _ => t

def Xml.text : Xml → Str
  | .elem _ x _ _ => x

def Xml.attrs : Xml → List (Str × Str)
  | .elem _ _ a _ => a

/-- The immediate children of an element (`for child in root`). -/
def Xml.children : Xml → List Xml
  | .elem _ _ _ cs => cs.toList

/- `root.iter()`: the element and all of its descendants, in document
(preorder) order. -/
mutual
def Xml.iter : Xml → List Xml
  | .elem t x a cs => .elem t x a cs :: XmlList.iterAll cs
termination_by structural e => e
def XmlList.iterAll : XmlList → List Xml
  | .nil => []
  | .cons c cs => Xml.iter c ++ XmlList.iterAll cs
termination_by structural cs => cs
end

/-- A file on disk: its name, its `stat` behaviour (`statOk = false` models a
raised `OSError`, in which case `mtime` is irrelevant) and its XML parse
result (`none` models a raised parse/IO error in `ET.parse`). -/
structure XmlFile where
  name : Str
  mtime : ℚ
  statOk : Bool
  parse : Option Xml
  deriving DecidableEq

/- A directory: its name and its entries, `os.scandir` order preserved
(directory entries and file entries are listed separately because the code
always filters by `entry.is_dir()` / `entry.is_file()`). -/
mutual
inductive Dir where
  | node (name : Str) (subdirs : DirList) (files : List XmlFile)
  deriving DecidableEq
inductive DirList where
  | nil
  | cons (d : Dir) (ds : DirList)
  deriving DecidableEq
end

def DirList.toList : DirList → List Dir
  | .nil => []
  | .cons d ds => d :: ds.toList

def DirList.ofList : List Dir → DirList
  | [] => .nil
  | d :: ds => .cons d (DirList.ofList ds)

def Dir.name : Dir → Str
  | .node n _ _ => n

def Dir.subdirs : Dir → List Dir
  | .node _ ds _ => ds.toList

def Dir.files : Dir → List XmlFile
  | .node _ _ fs => fs

/-- `_find_case_insensitive_dir(parent, expected_name)`: the first directory
entry of `parent` whose name case-insensitively equals `expected_name`. -/
def findCaseInsensitiveDir (parent : Dir) (expectedName : Str) : Option Dir :=
  parent.subdirs.find? (fun d => strLower d.name = strLower expectedName)

/-- `_about_xml_path(mod_root)`: the `About.xml` file inside a
case-insensitively named `About` directory, if both exist. -/
def aboutXmlFile (modRoot : Dir) : Option XmlFile :=
  match findCaseInsensitiveDir modRoot ("About".toList) with
  | none => none
  | some aboutDir =>
      aboutDir.files.find? (fun f => strLower f.name = ("about.xml".toList))

/-- `_parse_supported_versions(mod_root)`: the stripped, non-empty texts of
the `li` children of the first element of `About.xml` whose
namespace-stripped, lower-cased tag is `supportedversions`; `[]` on any
missing file or parse failure. -/
def parseSupportedVersions (modRoot : Dir) : List Str :=
  match aboutXmlFile modRoot with
  | none => []
  | some f =>
      match f.parse with
      | none => []
      | some root =>
          match root.iter.find?
              (fun e => strLower (stripNs e.tag) = ("supportedversions".toList)) with
          | none => []
          | some sv =>
              sv.children.filterMap (fun child =>
                if strLower (stripNs child.tag) = ("li".toList) then
                  let text := pyStrip child.text
                  if text ≠ [] then some text else none
                else none)

/-- `_normalize_version_string(version)`: `re.search(r"(\d+)\.(\d+)", v)` —
the leftmost maximal digit run that is immediately followed by a dot and a
digit, paired with the maximal digit run after that dot. -/
def normalizeVersionString : Str → Option (Nat × Nat)
  | [] => none
  | c :: rest =>
      if c.isDigit then
        match (c :: rest).dropWhile Char.isDigit with
        | '.' :: c2 :: rest2 =>
            if c2.isDigit then
              some (digitsToNat ((c :: rest).takeWhile Char.isDigit),
                    digitsToNat ((c2 :: rest2).takeWhile Char.isDigit))
            else normalizeVersionString rest
        | _ => normalizeVersionString rest
      else normalizeVersionString rest

/-- `_find_available_version_dirs(mod_root)`: scan the immediate
subdirectories, keep those whose name normalizes to a version tag
(`mapping[norm] = Path(entry.path)`). -/
def findAvailableVersionDirs (modRoot : Dir) : List ((Nat × Nat) × Dir) :=
  modRoot.subdirs.foldl (fun acc d =>
    match normalizeVersionString d.name with
    | some nv => pyDictInsert acc nv d
    | none => acc) []

/-- Python `<` on `(int, int)` tuples: lexicographic. -/
def pairLt (a b : Nat × Nat) : Bool :=
  a.1 < b.1 || (a.1 = b.1 && a.2 < b.2)

/-- Python `max` over a list of `(int, int)` tuples (`none` on `[]`). -/
def pyMax? : List (Nat × Nat) → Option (Nat × Nat)
  | [] => none
  | x :: xs => some (xs.foldl (fun acc y => if pairLt acc y then y else acc) x)

/-- `_choose_version_dir(mod_root)`: the directory of the greatest declared
version tag that is available, else the directory of the greatest available
version tag, else `none`. -/
def chooseVersionDir (modRoot : Dir) : Option Dir :=
  let supported := parseSupportedVersions modRoot
  let available := findAvailableVersionDirs modRoot
  let supportedNorm := supported.filterMap normalizeVersionString
  let candidates := supportedNorm.filter (fun nv => available.any (fun p => p.1 = nv))
  match pyMax? candidates with
  | some chosen => pyDictFind available chosen
  | none =>
      match pyMax? (pyDictKeys available) with
      | some chosen => pyDictFind available chosen
      | none => none

/-- `file.lower().endswith(".xml")`. -/
def isXmlName (f : XmlFile) : Bool :=
  List.isSuffixOf (".xml".toList) (strLower f.name)

/- `os.walk` over a `Defs` tree, keeping the files whose lower-cased name
ends in `.xml`: the files of the top directory first, then each subtree in
listing order. -/
mutual
def xmlFilesUnder : Dir → List XmlFile
  | .node _ subdirs files => files.filter isXmlName ++ xmlFilesUnderList subdirs
termination_by structural d => d
def xmlFilesUnderList : DirList → List XmlFile
  | .nil => []
  | .cons d ds => xmlFilesUnder d ++ xmlFilesUnderList ds
termination_by structural ds => ds
end

/- `os.walk` without the extension filter: every file under a directory, in
the same order.  Used only to state what the enumerator selects. -/
mutual
def allFilesUnder : Dir → List XmlFile
  | .node _ subdirs files => files ++ allFilesUnderList subdirs
termination_by structural d => d
def allFilesUnderList : DirList → List XmlFile
  | .nil => []
  | .cons d ds => allFilesUnder d ++ allFilesUnderList ds
termination_by structural ds => ds
end

/-- `_iter_defs_xml_files(mod_path)` (fully forced, as both of its callers
do): the `.xml` files under a case-insensitively named root-level `Defs`
directory, followed by the `.xml` files under the `Defs` subdirectory of the
single version directory chosen by `_choose_version_dir`.  `none` models a
nonexistent mod path. -/
def rootDefsFiles (root : Dir) : List XmlFile :=
  match findCaseInsensitiveDir root ("Defs".toList) with
  | some rootDefs => xmlFilesUnder rootDefs
  | none => []

def versionDefsFiles (root : Dir) : List XmlFile :=
  match chooseVersionDir root with
  | some versionDir =>
      match findCaseInsensitiveDir versionDir ("Defs".toList) with
      | some versionDefs => xmlFilesUnder versionDefs
      | none => []
  | none => []

def iterDefsXmlFiles (modPath : Option Dir) : List XmlFile :=
  match modPath with
  | none => []
  | some root => rootDefsFiles root ++ versionDefsFiles root

/-- One iteration of the mtime loop of `_compute_signature`: take the
file's mtime when it stats successfully and is strictly larger. -/
def mtimeStep (latest : ℚ) (f : XmlFile) : ℚ :=
  if f.statOk then (if latest < f.mtime then f.mtime else latest) else latest

/-- The mtime loop of `_compute_signature`, starting from `0.0`. -/
def latestMtime (files : List XmlFile) : ℚ :=
  files.foldl mtimeStep 0

/-- `_compute_signature(mod_path)`: `(0, 0.0)` when no file is enumerated,
else the number of enumerated files paired with the latest stat-able mtime. -/
def computeSignature (modPath : Option Dir) : Nat × ℚ :=
  match iterDefsXmlFiles modPath with
  | [] => (0, 0)
  | _ :: _ => ((iterDefsXmlFiles modPath).length, latestMtime (iterDefsXmlFiles modPath))

/-- The running state of `_scan_defs`: the `Counter` (an insertion-ordered
key/count dictionary) and `files_scanned`. -/
structure ScanState where
  typeCounter : List (Str × Nat)
  filesScanned : Nat
  deriving DecidableEq

/-- `type_counter[child_tag] += 1`: bump an existing key, else append it
with count 1 (a `Counter` stores a missing key as 0). -/
def counterBump (m : List (Str × Nat)) (k : Str) : List (Str × Nat) :=
  if m.any (fun p => p.1 = k) then
    m.map (fun p => if p.1 = k then (p.1, p.2 + 1) else p)
  else m ++ [(k, 1)]

/-- One iteration of the `for child in root` loop of `_scan_defs`: bump the
counter at the namespace-stripped child tag when that tag is non-empty. -/
def childStep (c : List (Str × Nat)) (child : Xml) : List (Str × Nat) :=
  let childTag := stripNs child.tag
  if childTag ≠ [] then counterBump c childTag else c

/-- The per-file body of the `_scan_defs` loop: skip the file on parse
failure; skip it (uncounted) when the namespace-stripped root tag is not
`defs` case-insensitively; otherwise bump the counter once per immediate
child with a non-empty stripped tag, and count the file as scanned. -/
def scanFile (st : ScanState) (f : XmlFile) : ScanState :=
  match f.parse with
  | none => st
  | some root =>
      if strLower (stripNs root.tag) = ("defs".toList) then
        { typeCounter := root.children.foldl childStep st.typeCounter,
          filesScanned := st.filesScanned + 1 }
      else st

/-- The summary value: totals, per-type counts, files successfully scanned. -/
structure DefsSummary where
  total_defs : Nat
  type_counts : List (Str × Nat)
  files_scanned : Nat
  deriving DecidableEq

/-- `sum(type_counter.values())`. -/
def sumValues (m : List (Str × Nat)) : Nat :=
  (m.map (fun p => p.2)).sum

/-- `_scan_defs(mod_path)`: fold the scan loop over the enumerated files and
package the result. -/
def scanDefs (modPath : Option Dir) : DefsSummary :=
  let st := (iterDefsXmlFiles modPath).foldl scanFile ⟨[], 0⟩
  { total_defs := sumValues st.typeCounter,
    type_counts := st.typeCounter,
    files_scanned := st.filesScanned }

/-- The process-wide `_cache` of `_DefsSummaryCache`: resolved path key to
`(signature, summary)`. -/
structure CacheState where
  entries : List (Str × ((Nat × ℚ) × DefsSummary))
  deriving DecidableEq

def cacheLookup (st : CacheState) (k : Str) : Option ((Nat × ℚ) × DefsSummary) :=
  pyDictFind st.entries k

/-- `self._cache[path_key] = (signature, summary)`: dictionary store. -/
def cacheStore (st : CacheState) (k : Str) (v : (Nat × ℚ) × DefsSummary) : CacheState :=
  ⟨pyDictInsert st.entries k v⟩

/-- `_DefsSummaryCache.get(mod_path)` = `get_defs_summary(mod_path)`:
`key` models `str(Path(mod_path).resolve())`, `fs` the directory tree the
path currently denotes.  Compute the signature; on a stored entry with an
equal signature return the stored summary, else rescan and store. -/
def cacheGet (fs : Option Dir) (key : Str) (st : CacheState) :
    DefsSummary × CacheState :=
  let signature := computeSignature fs
  match cacheLookup st key with
  | some cached =>
      if cached.1 = signature then (cached.2, st)
      else
        let summary := scanDefs fs
        (summary, cacheStore st key (signature, summary))
  | none =>
      let summary := scanDefs fs
      (summary, cacheStore st key (signature, summary))

/-- Whether a call to `get` takes the cached path (entry present, equal
signature). -/
def cacheHit (fs : Option Dir) (key : Str) (st : CacheState) : Bool :=
  match cacheLookup st key with
  | some cached => cached.1 = computeSignature fs
  | none => false

/-- How many `ET.parse` invocations one full run of the
`_iter_defs_xml_files` generator performs: exactly one, on `About.xml`, when
`_about_xml_path` finds it (`_choose_version_dir` is reached on every full
run), else zero. -/
def enumAboutParses (fs : Option Dir) : Nat :=
  match fs with
  | none => 0
  | some root => if (aboutXmlFile root).isSome then 1 else 0

/-- The `ET.parse` invocations of one `get` call, split as (About.xml
parses, Defs-file parses).  A hit runs the enumerator once (inside
`_compute_signature`) and parses no Defs file; a miss runs it twice (again
inside `_scan_defs`) and invokes `ET.parse` on every enumerated file. -/
def cacheGetParses (fs : Option Dir) (key : Str) (st : CacheState) : Nat × Nat :=
  if cacheHit fs key st then (enumAboutParses fs, 0)
  else (2 * enumAboutParses fs, (iterDefsXmlFiles fs).length)

/-!  `app/utils/startup_impact_metrics.py`.  The metrics file is modelled as
`Option (Option Xml)`: `none` when `_find_metrics_file` finds nothing,
`some p` when the file exists and `ET.parse` yields `p`. -/

/-- Python `int(s)` on a string: strip whitespace, optional sign, digits. -/
def pyInt? (s : Str) : Option Int :=
  match pyStrip s with
  | [] => none
  | '-' :: ds =>
      if ds ≠ [] ∧ ds.all Char.isDigit then some (-(digitsToNat ds : Int)) else none
  | '+' :: ds =>
      if ds ≠ [] ∧ ds.all Char.isDigit then some (digitsToNat ds : Int) else none
  | c :: ds =>
      if (c :: ds).all Char.isDigit then some (digitsToNat (c :: ds) : Int) else none

/-- `Element.get(attr_name)`. -/
def attrGet (e : Xml) (k : Str) : Option Str :=
  (e.attrs.find? (fun p => p.1 = k)).map (fun p => p.2)

/-- The body of `get_total_ms_by_mod_name` past the cache check: find the
`Mods` child, and for each `Mod` child with a non-empty `name`, a non-empty
integral `totalMs`, and `totalMs > 0`, store it under the lower-cased name. -/
def loadMetrics (metricsFile : Option (Option Xml)) : List (Str × Int) :=
  match metricsFile with
  | none => []
  | some none => []
  | some (some root) =>
      match root.children.find? (fun c => c.tag = ("Mods".toList)) with
      | none => []
      | some mods =>
          (mods.children.filter (fun c => c.tag = ("Mod".toList))).foldl
            (fun metrics modEl =>
              match attrGet modEl ("name".toList), attrGet modEl ("totalMs".toList) with
              | some nm, some totalMsStr =>
                  if nm = [] ∨ totalMsStr = [] then metrics
                  else
                    match pyInt? totalMsStr with
                    | none => metrics
                    | some totalMs =>
                        if totalMs ≤ 0 then metrics
                        else pyDictInsert metrics (strLower nm) totalMs
              | _, _ => metrics)
            []

/-- `get_total_ms_by_mod_name()` with the module-global `_cache` passed
explicitly: returns the mapping, the new cache state, and the number of
`ET.parse` invocations on the metrics file this call performed. -/
def getTotalMsByModName (metricsFile : Option (Option Xml))
    (cache : Option (List (Str × Int))) :
    List (Str × Int) × Option (List (Str × Int)) × Nat :=
  match cache with
  | some m => (m, some m, 0)
  | none =>
      let m := loadMetrics metricsFile
      (m, some m, if metricsFile.isSome then 1 else 0)

/-!  Definitions used only to state properties. -/

/-- The lexicographic (major, minor) order the spec bases "maximum
VersionTag" on, as a proposition. -/
def pairLe (a b : Nat × Nat) : Prop :=
  a.1 < b.1 ∨ (a.1 = b.1 ∧ a.2 ≤ b.2)

/-- The version tags a mod declares: its parsed `supportedVersions` entries,
unparseable ones discarded. -/
def declaredTags (modRoot : Dir) : List (Nat × Nat) :=
  (parseSupportedVersions modRoot).filterMap normalizeVersionString

/-- The count a `Counter`-as-association-list holds for a key (0 when the
key is absent). -/
def countOf (m : List (Str × Nat)) (k : Str) : Nat :=
  match m.find? (fun p => p.1 = k) with
  | some p => p.2
  | none => 0

/-- The keys of an association list are pairwise distinct (every dictionary
the code builds satisfies this). -/
def KeysNodup (m : List (Str × Nat)) : Prop :=
  (m.map (fun p => p.1)).Nodup

/-- How many definition nodes one file contributes to a scan: the number of
immediate children with a non-empty stripped tag, when the file parses and
its stripped root tag is `defs` case-insensitively; 0 otherwise. -/
def fileContrib (f : XmlFile) : Nat :=
  match f.parse with
  | none => 0
  | some root =>
      if strLower (stripNs root.tag) = ("defs".toList) then
        root.children.countP (fun ch => stripNs ch.tag ≠ [])
      else 0

/-- The total definition count a scan of exactly these files produces. -/
def totalOf (files : List XmlFile) : Nat :=
  sumValues ((files.foldl scanFile ⟨[], 0⟩).typeCounter)

/-- Every entry of the cache is a `(signature, summary)` pair that
`_compute_signature` / `_scan_defs` produced for some directory state.  This
holds for every cache state the program can reach (the cache starts empty
and `get` only ever stores such pairs). -/
def CacheConsistent (st : CacheState) : Prop :=
  ∀ e ∈ st.entries, ∃ fs : Option Dir, e.2.1 = computeSignature fs ∧ e.2.2 = scanDefs fs

/-!  Concrete directory trees used as witness and counterexample inputs. -/

/-- An empty directory with the given name. -/
def emptyD (n : String) : Dir := .node n.toList (.ofList []) []

/-- An element with children only. -/
def mkXml (tag : String) (children : List Xml) : Xml :=
  .elem tag.toList [] [] (.ofList children)

/-- A leaf element with text. -/
def mkXmlText (tag text : String) : Xml :=
  .elem tag.toList text.toList [] (.ofList [])

/-- An `About.xml` whose manifest declares `supportedVersions = ["1.4"]`. -/
def exAboutFile14 : XmlFile :=
  ⟨"About.xml".toList, 0, true,
    some (mkXml ("ModMetaData") [mkXml ("supportedVersions") [mkXmlText ("li") ("1.4")]])⟩

/-- A mod with version folders 1.3, 1.4, 1.5 and a manifest declaring 1.4. -/
def exPrecRoot : Dir :=
  .node ("m".toList)
    (.ofList [emptyD ("1.3"), emptyD ("1.4"), emptyD ("1.5"),
              .node ("About".toList) (.ofList []) [exAboutFile14]])
    []

/-- A mod with no manifest and version folders 1.2, 1.5, 1.3. -/
def exFbRoot : Dir :=
  .node ("m".toList) (.ofList [emptyD ("1.2"), emptyD ("1.5"), emptyD ("1.3")]) []

/-- A well-formed defs file with three immediate children (two `ThingDef`,
one `RecipeDef`). -/
def exGoodFile : XmlFile :=
  ⟨"good.xml".toList, 1, true,
    some (mkXml ("Defs") [mkXml ("ThingDef") [], mkXml ("ThingDef") [], mkXml ("RecipeDef") []])⟩

/-- A file whose XML parse fails. -/
def exBadFile : XmlFile := ⟨"bad.xml".toList, 2, true, none⟩

/-- A mod whose `Defs` directory holds one well-formed file with 3 children
and one malformed file. -/
def exResilRoot : Dir :=
  .node ("m".toList)
    (.ofList [.node ("Defs".toList) (.ofList []) [exGoodFile, exBadFile]]) []

/-- A mod whose single enumerated defs file cannot be stat'd. -/
def exUnstatRoot : Dir :=
  .node ("m".toList)
    (.ofList [.node ("Defs".toList) (.ofList []) [⟨"a.xml".toList, 5, false, none⟩]])
    []

/-- The same mod with the unstat-able file removed. -/
def exUnstatRootWithout : Dir :=
  .node ("m".toList) (.ofList [.node ("Defs".toList) (.ofList []) []]) []

/-- A mod holding only an `About/About.xml` manifest (no defs files). -/
def exAboutOnlyRoot : Dir :=
  .node ("m".toList)
    (.ofList [.node ("About".toList) (.ofList []) [exAboutFile14]]) []

/-- A mod whose defs file uses a namespaced child tag. -/
def exNsRoot : Dir :=
  .node ("m".toList)
    (.ofList [.node ("DEFS".toList) (.ofList [])
      [⟨"a.XML".toList, 1, true, some (mkXml ("Defs") [mkXml ("{ns}ThingDef") []])⟩]])
    []

/-- A mod with one version folder that has no `Defs` subdirectory and no
root-level `Defs` either. -/
def exNoDefsRoot : Dir :=
  .node ("m".toList) (.ofList [emptyD ("1.0")]) []

/-!  The error model of the mod-path argument.  `os.scandir(mod_path)` can
raise: `FileNotFoundError` on a missing path, `NotADirectoryError` when the
path denotes a regular file, `PermissionError` on an unreadable directory.
The three probe sites (`_find_case_insensitive_dir`, `_about_xml_path`,
`_find_available_version_dirs`) catch only `FileNotFoundError`; every other
`OSError` propagates out of the generator, out of `_compute_signature`, and
out of `get`.  The outcome of scanning the mod path itself is therefore made
explicit as `Except OsError Dir`; the `Option Dir` model above is its
restriction to the two outcomes the code recovers from (`.ok` and
`.error .fileNotFound`). -/

/-- The `OSError` subclasses `os.scandir` raises on a bad path argument. -/
inductive OsError where
  | fileNotFound
  | notADirectory
  | permissionDenied
  deriving DecidableEq

/-- `_find_available_version_dirs(mod_path)` likewise: `{}` on
`FileNotFoundError`, any other `OSError` propagates. -/
def findAvailableVersionDirsE (modPath : Except OsError Dir) :
    Except OsError (List ((Nat × Nat) × Dir)) :=
  match modPath with
  | .ok root => .ok (findAvailableVersionDirs root)
  | .error .fileNotFound => .ok []
  | .error e => .error e

/-- One full run of the `_iter_defs_xml_files` generator with the mod-path
scandir outcome explicit.  Its first action probes the mod path for `Defs`,
so a non-`FileNotFoundError` failure raises out of the generator before any
file is yielded; a `FileNotFoundError` is caught at every probe site and the
run proceeds exactly as the `Option Dir` model over a missing path. -/
def iterDefsXmlFilesE (modPath : Except OsError Dir) : Except OsError (List XmlFile) :=
  match modPath with
  | .ok root => .ok (iterDefsXmlFiles (some root))
  | .error .fileNotFound => .ok (iterDefsXmlFiles none)
  | .error e => .error e

/-- `_compute_signature(mod_path)` forces the generator first, so it raises
exactly when the generator does. -/
def computeSignatureE (modPath : Except OsError Dir) : Except OsError (Nat × ℚ) :=
  match modPath with
  | .ok root => .ok (computeSignature (some root))
  | .error .fileNotFound => .ok (computeSignature none)
  | .error e => .error e

theorem pairLe_refl (a : Nat × Nat) : pairLe a a := Or.inr ⟨rfl, le_refl _⟩

theorem pairLe_trans {a b c : Nat × Nat} (h₁ : pairLe a b) (h₂ : pairLe b c) :
    pairLe a c := by
  unfold pairLe at h₁ h₂ ⊢
  omega

theorem pairLe_of_pairLt {a b : Nat × Nat} (h : pairLt a b = true) : pairLe a b := by
  simp only [pairLt, Bool.or_eq_true, Bool.and_eq_true, decide_eq_true_eq] at h
  unfold pairLe
  omega

theorem pairLe_of_not_pairLt {a b : Nat × Nat} (h : pairLt a b = false) : pairLe b a := by
  have h' : ¬ (a.1 < b.1 ∨ (a.1 = b.1 ∧ a.2 < b.2)) := by
    intro hc
    rw [show (pairLt a b = true) from by
      simp only [pairLt, Bool.or_eq_true, Bool.and_eq_true, decide_eq_true_eq]; exact hc] at h
    exact absurd h (by simp)
  unfold pairLe
  omega

theorem foldlMax_mem (xs : List (Nat × Nat)) :
    ∀ x, xs.foldl (fun acc y => if pairLt acc y then y else acc) x ∈ x :: xs := by
  induction xs with
  | nil => intro x; simp
  | cons y ys ih =>
      intro x
      simp only [List.foldl_cons]
      rcases List.mem_cons.mp (ih (if pairLt x y then y else x)) with h | h
      · rw [h]
        by_cases hxy : pairLt x y = true <;> simp [hxy]
      · exact List.mem_cons_of_mem _ (List.mem_cons_of_mem _ h)

theorem foldlMax_ge (xs : List (Nat × Nat)) :
    ∀ x z, z ∈ x :: xs →
      pairLe z (xs.foldl (fun acc y => if pairLt acc y then y else acc) x) := by
  induction xs with
  | nil =>
      intro x z hz
      simp only [List.mem_singleton] at hz
      subst hz
      exact pairLe_refl _
  | cons y ys ih =>
      intro x z hz
      simp only [List.foldl_cons]
      have hx : pairLe x (if pairLt x y then y else x) := by
        by_cases h : pairLt x y = true
        · rw [if_pos h]; exact pairLe_of_pairLt h
        · rw [if_neg h]; exact pairLe_refl _
      have hy : pairLe y (if pairLt x y then y else x) := by
        by_cases h : pairLt x y = true
        · rw [if_pos h]; exact pairLe_refl _
        · rw [if_neg h]
          exact pairLe_of_not_pairLt (Bool.not_eq_true _ ▸ h)
      rcases List.mem_cons.mp hz with rfl | hz'
      · exact pairLe_trans hx (ih _ _ (List.mem_cons_self _ _))
      · rcases List.mem_cons.mp hz' with rfl | hz2
        · exact pairLe_trans hy (ih _ _ (List.mem_cons_self _ _))
        · exact ih _ _ (List.mem_cons_of_mem _ hz2)

theorem pyMax?_mem {l : List (Nat × Nat)} {m : Nat × Nat} (h : pyMax? l = some m) :
    m ∈ l := by
  cases l with
  | nil => simp [pyMax?] at h
  | cons x xs =>
      simp only [pyMax?, Option.some_inj] at h
      rw [← h]
      exact foldlMax_mem xs x

theorem pyMax?_ge {l : List (Nat × Nat)} {m : Nat × Nat} (h : pyMax? l = some m) :
    ∀ x ∈ l, pairLe x m := by
  cases l with
  | nil => simp [pyMax?] at h
  | cons x xs =>
      simp only [pyMax?, Option.some_inj] at h
      rw [← h]
      intro z hz
      exact foldlMax_ge xs x z hz

theorem pyMax?_eq_none {l : List (Nat × Nat)} : pyMax? l = none ↔ l = [] := by
  cases l <;> simp [pyMax?]

/-!  Helper lemmas: python dictionaries as association lists. -/

theorem pyDictInsert_cons_ne {α β : Type} [DecidableEq α] {p : α × β}
    {rest : List (α × β)} {k : α} (v : β) (hp : p.1 ≠ k) :
    pyDictInsert (p :: rest) k v = p :: pyDictInsert rest k v := by
  by_cases h : rest.any (fun q => q.1 = k)
  · simp [pyDictInsert, hp, h]
  · simp [pyDictInsert, hp, h]

theorem pyDictFind_insert_self {α β : Type} [DecidableEq α]
    (m : List (α × β)) (k : α) (v : β) :
    pyDictFind (pyDictInsert m k v) k = some v := by
  induction m with
  | nil => simp [pyDictInsert, pyDictFind]
  | cons p rest ih =>
      by_cases hp : p.1 = k
      · simp [pyDictInsert, pyDictFind, hp]
      · rw [pyDictInsert_cons_ne v hp]
        simpa [pyDictFind, List.find?_cons, hp] using ih

theorem pyDictFind_isSome_of_mem_keys {α β : Type} [DecidableEq α]
    {m : List (α × β)} {k : α} (h : k ∈ pyDictKeys m) :
    (pyDictFind m k).isSome := by
  simp only [pyDictKeys, List.mem_map] at h
  obtain ⟨p, hp, hpk⟩ := h
  have hfind : (m.find? (fun p => p.1 = k)).isSome := by
    rw [List.find?_isSome]
    exact ⟨p, hp, by simp [hpk]⟩
  obtain ⟨q, hq⟩ := Option.isSome_iff_exists.mp hfind
  simp [pyDictFind, hq]

/-!  Helper lemmas: the `Counter` operations of the scan loop. -/

theorem countOf_nil (k : Str) : countOf [] k = 0 := rfl

theorem countOf_cons_eq {p : Str × Nat} {rest : List (Str × Nat)} {k : Str}
    (h : p.1 = k) : countOf (p :: rest) k = p.2 := by
  simp [countOf, List.find?_cons, h]

theorem countOf_cons_ne {p : Str × Nat} {rest : List (Str × Nat)} {k : Str}
    (h : p.1 ≠ k) : countOf (p :: rest) k = countOf rest k := by
  simp [countOf, List.find?_cons, h]

theorem sumValues_nil : sumValues [] = 0 := rfl

theorem sumValues_cons (p : Str × Nat) (rest : List (Str × Nat)) :
    sumValues (p :: rest) = p.2 + sumValues rest := by
  simp [sumValues]

theorem counterBump_cons_ne {p : Str × Nat} {rest : List (Str × Nat)} {k : Str}
    (hp : p.1 ≠ k) :
    counterBump (p :: rest) k = p :: counterBump rest k := by
  by_cases h : rest.any (fun q => q.1 = k) <;> simp [counterBump, hp, h]

theorem counterBump_cons_eq {p : Str × Nat} {rest : List (Str × Nat)} {k : Str}
    (hp : p.1 = k) (hrest : ∀ q ∈ rest, q.1 ≠ k) :
    counterBump (p :: rest) k = (p.1, p.2 + 1) :: rest := by
  have hmap : rest.map (fun q => if q.1 = k then (q.1, q.2 + 1) else q) = rest := by
    conv_rhs => rw [← List.map_id rest]
    exact List.map_congr_left (fun q hq => by rw [if_neg (hrest q hq)]; rfl)
  simp [counterBump, hp, hmap]

theorem keysNodup_nil : KeysNodup [] := List.nodup_nil

theorem keysNodup_cons {p : Str × Nat} {rest : List (Str × Nat)}
    (h : KeysNodup (p :: rest)) :
    (∀ q ∈ rest, q.1 ≠ p.1) ∧ KeysNodup rest := by
  unfold KeysNodup at h
  simp only [List.map_cons, List.nodup_cons, List.mem_map] at h
  exact ⟨fun q hq hqk => h.1 ⟨q, hq, hqk⟩, h.2⟩

theorem keysNodup_cons_of {p : Str × Nat} {rest : List (Str × Nat)}
    (h1 : ∀ q ∈ rest, q.1 ≠ p.1) (h2 : KeysNodup rest) : KeysNodup (p :: rest) := by
  unfold KeysNodup
  simp only [List.map_cons, List.nodup_cons, List.mem_map]
  exact ⟨fun ⟨q, hq, hqk⟩ => h1 q hq hqk, h2⟩

theorem countOf_counterBump (m : List (Str × Nat)) (k j : Str) (hm : KeysNodup m) :
    countOf (counterBump m k) j = countOf m j + if j = k then 1 else 0 := by
  induction m with
  | nil =>
      by_cases h : j = k <;> simp [counterBump, countOf, List.find?_cons, h, Ne.symm]
  | cons p rest ih =>
      obtain ⟨hne, hrest⟩ := keysNodup_cons hm
      by_cases hp : p.1 = k
      · rw [counterBump_cons_eq hp (fun q hq => by
          intro hqk; exact (hne q hq) (hqk.trans hp.symm))]
        by_cases hj : j = k
        · have hpj : p.1 = j := by rw [hp, hj]
          rw [countOf_cons_eq (show ((p.1, p.2 + 1) : Str × Nat).1 = j from hpj),
            countOf_cons_eq hpj, if_pos hj]
        · have hpj : p.1 ≠ j := fun hc => hj (by rw [← hc]; exact hp)
          rw [countOf_cons_ne (show ((p.1, p.2 + 1) : Str × Nat).1 ≠ j from hpj),
            countOf_cons_ne hpj, if_neg hj]
          omega
      · rw [counterBump_cons_ne hp]
        by_cases hj : p.1 = j
        · rw [countOf_cons_eq hj, countOf_cons_eq hj,
            if_neg (fun hc : j = k => hp (by rw [hj, hc]))]
          omega
        · rw [countOf_cons_ne hj, countOf_cons_ne hj]
          exact ih hrest

theorem sumValues_counterBump (m : List (Str × Nat)) (k : Str) (hm : KeysNodup m) :
    sumValues (counterBump m k) = sumValues m + 1 := by
  induction m with
  | nil => simp [counterBump, sumValues]
  | cons p rest ih =>
      obtain ⟨hne, hrest⟩ := keysNodup_cons hm
      by_cases hp : p.1 = k
      · rw [counterBump_cons_eq hp (fun q hq hqk => (hne q hq) (hqk.trans hp.symm)),
          sumValues_cons, sumValues_cons]
        omega
      · rw [counterBump_cons_ne hp, sumValues_cons, sumValues_cons, ih hrest]
        omega

theorem counterBump_mem {m : List (Str × Nat)} {k : Str} {q : Str × Nat}
    (hq : q ∈ counterBump m k) :
    (q.1 = k ∧ 0 < q.2) ∨ q ∈ m := by
  unfold counterBump at hq
  by_cases h : m.any (fun p => p.1 = k)
  · rw [if_pos h] at hq
    rcases List.mem_map.mp hq with ⟨p, hp, hpq⟩
    by_cases hk : p.1 = k
    · left
      rw [← hpq, if_pos hk]
      exact ⟨hk, by omega⟩
    · right
      rw [← hpq, if_neg hk]
      exact hp
  · rw [if_neg h] at hq
    rcases List.mem_append.mp hq with h' | h'
    · right; exact h'
    · left
      simp only [List.mem_singleton] at h'
      rw [h']
      exact ⟨rfl, by omega⟩

theorem counterBump_keysNodup (m : List (Str × Nat)) (k : Str) (hm : KeysNodup m) :
    KeysNodup (counterBump m k) := by
  induction m with
  | nil => simp [counterBump, KeysNodup]
  | cons p rest ih =>
      obtain ⟨hne, hrest⟩ := keysNodup_cons hm
      by_cases hp : p.1 = k
      · rw [counterBump_cons_eq hp (fun q hq hqk => (hne q hq) (hqk.trans hp.symm))]
        exact keysNodup_cons_of hne hrest
      · rw [counterBump_cons_ne hp]
        apply keysNodup_cons_of ?_ (ih hrest)
        intro q hq
        rcases counterBump_mem hq with hq' | hq'
        · rw [hq'.1]
          exact fun hc => hp hc.symm
        · exact hne q hq'

/-!  Helper lemmas: the `for child in root` loop. -/

theorem childStep_skip {c : List (Str × Nat)} {child : Xml}
    (ht : stripNs child.tag = []) : childStep c child = c := by
  simp [childStep, ht]

theorem childStep_bump {c : List (Str × Nat)} {child : Xml}
    (ht : stripNs child.tag ≠ []) :
    childStep c child = counterBump c (stripNs child.tag) := by
  simp [childStep, ht]

theorem childStep_keysNodup {c : List (Str × Nat)} {child : Xml}
    (h : KeysNodup c) : KeysNodup (childStep c child) := by
  by_cases ht : stripNs child.tag = []
  · rw [childStep_skip ht]; exact h
  · rw [childStep_bump ht]; exact counterBump_keysNodup _ _ h

theorem childFold_keysNodup (children : List Xml) :
    ∀ c, KeysNodup c → KeysNodup (children.foldl childStep c) := by
  induction children with
  | nil => intro c hc; exact hc
  | cons ch rest ih =>
      intro c hc
      exact ih _ (childStep_keysNodup hc)

theorem countOf_childFold (children : List Xml) :
    ∀ c, KeysNodup c → ∀ k : Str,
      countOf (children.foldl childStep c) k =
        countOf c k +
          if k = [] then 0 else children.countP (fun ch => stripNs ch.tag = k) := by
  induction children with
  | nil =>
      intro c hc k
      by_cases hk : k = [] <;> simp [hk]
  | cons ch rest ih =>
      intro c hc k
      simp only [List.foldl_cons]
      rw [ih (childStep c ch) (childStep_keysNodup hc) k]
      by_cases ht : stripNs ch.tag = []
      · rw [childStep_skip ht]
        by_cases hk : k = []
        · simp [hk]
        · have hne2 : ¬(([] : Str) = k) := fun hc2 => hk hc2.symm
          simp only [if_neg hk, List.countP_cons, ht, decide_eq_true_eq]
          simp [hne2]
      · rw [childStep_bump ht, countOf_counterBump c (stripNs ch.tag) k hc]
        by_cases hk : k = []
        · have hne2 : ¬(k = stripNs ch.tag) := fun hc2 => ht (by rw [← hc2, hk])
          simp [hk, hne2, ht]
        · simp only [if_neg hk, List.countP_cons, decide_eq_true_eq]
          by_cases hek : stripNs ch.tag = k
          · simp only [hek, if_pos rfl]
            omega
          · have hne2 : ¬(k = stripNs ch.tag) := fun hc2 => hek hc2.symm
            simp only [if_neg hne2, if_neg hek]
            omega

theorem sumValues_childFold (children : List Xml) :
    ∀ c, KeysNodup c →
      sumValues (children.foldl childStep c) =
        sumValues c + children.countP (fun ch => stripNs ch.tag ≠ []) := by
  induction children with
  | nil => intro c hc; simp
  | cons ch rest ih =>
      intro c hc
      simp only [List.foldl_cons, List.countP_cons]
      rw [ih _ (childStep_keysNodup hc)]
      by_cases ht : stripNs ch.tag = []
      · rw [childStep_skip ht, if_neg (by simp [ht])]
        omega
      · rw [childStep_bump ht, sumValues_counterBump _ _ hc, if_pos (by simp [ht])]
        omega

theorem childStep_entries {c : List (Str × Nat)} {child : Xml}
    (h : ∀ p ∈ c, p.1 ≠ [] ∧ 0 < p.2) :
    ∀ p ∈ childStep c child, p.1 ≠ [] ∧ 0 < p.2 := by
  intro p hp
  by_cases ht : stripNs child.tag = []
  · rw [childStep_skip ht] at hp; exact h p hp
  · rw [childStep_bump ht] at hp
    rcases counterBump_mem hp with hp' | hp'
    · exact ⟨hp'.1 ▸ ht, hp'.2⟩
    · exact h p hp'

theorem childFold_entries (children : List Xml) :
    ∀ c, (∀ p ∈ c, p.1 ≠ [] ∧ 0 < p.2) →
      ∀ p ∈ children.foldl childStep c, p.1 ≠ [] ∧ 0 < p.2 := by
  induction children with
  | nil => intro c hc; exact hc
  | cons ch rest ih =>
      intro c hc
      exact ih _ (childStep_entries hc)

/-!  Helper lemmas: the per-file scan step and its fold. -/

theorem scanFile_parse_none {st : ScanState} {f : XmlFile} (h : f.parse = none) :
    scanFile st f = st := by
  simp [scanFile, h]

theorem scanFile_not_defs {st : ScanState} {f : XmlFile} {root : Xml}
    (hf : f.parse = some root) (h : strLower (stripNs root.tag) ≠ ("defs".toList)) :
    scanFile st f = st := by
  simp only [scanFile, hf]
  rw [if_neg h]

theorem scanFile_defs {st : ScanState} {f : XmlFile} {root : Xml}
    (hf : f.parse = some root) (h : strLower (stripNs root.tag) = ("defs".toList)) :
    scanFile st f =
      ⟨root.children.foldl childStep st.typeCounter, st.filesScanned + 1⟩ := by
  simp only [scanFile, hf]
  rw [if_pos h]

theorem scanFile_keysNodup {st : ScanState} {f : XmlFile}
    (h : KeysNodup st.typeCounter) : KeysNodup (scanFile st f).typeCounter := by
  match hf : f.parse with
  | none => rw [scanFile_parse_none hf]; exact h
  | some root =>
      by_cases hd : strLower (stripNs root.tag) = ("defs".toList)
      · rw [scanFile_defs hf hd]
        exact childFold_keysNodup _ _ h
      · rw [scanFile_not_defs hf hd]; exact h

theorem scanFile_sum {st : ScanState} {f : XmlFile} (h : KeysNodup st.typeCounter) :
    sumValues (scanFile st f).typeCounter = sumValues st.typeCounter + fileContrib f := by
  match hf : f.parse with
  | none => rw [scanFile_parse_none hf]; simp [fileContrib, hf]
  | some root =>
      by_cases hd : strLower (stripNs root.tag) = ("defs".toList)
      · rw [scanFile_defs hf hd]
        simp only [fileContrib, hf]
        rw [if_pos hd]
        exact sumValues_childFold _ _ h
      · rw [scanFile_not_defs hf hd]
        simp only [fileContrib, hf]
        rw [if_neg hd]
        omega

theorem scanFile_entries {st : ScanState} {f : XmlFile}
    (h : ∀ p ∈ st.typeCounter, p.1 ≠ [] ∧ 0 < p.2) :
    ∀ p ∈ (scanFile st f).typeCounter, p.1 ≠ [] ∧ 0 < p.2 := by
  match hf : f.parse with
  | none => rw [scanFile_parse_none hf]; exact h
  | some root =>
      by_cases hd : strLower (stripNs root.tag) = ("defs".toList)
      · rw [scanFile_defs hf hd]
        exact childFold_entries _ _ h
      · rw [scanFile_not_defs hf hd]; exact h

theorem scanFold_keysNodup (files : List XmlFile) :
    ∀ st : ScanState, KeysNodup st.typeCounter →
      KeysNodup ((files.foldl scanFile st).typeCounter) := by
  induction files with
  | nil => intro st h; exact h
  | cons f rest ih =>
      intro st h
      exact ih _ (scanFile_keysNodup h)

theorem scanFold_sum (files : List XmlFile) :
    ∀ st : ScanState, KeysNodup st.typeCounter →
      sumValues ((files.foldl scanFile st).typeCounter) =
        sumValues st.typeCounter + (files.map fileContrib).sum := by
  induction files with
  | nil => intro st h; simp
  | cons f rest ih =>
      intro st h
      simp only [List.foldl_cons, List.map_cons, List.sum_cons]
      rw [ih _ (scanFile_keysNodup h), scanFile_sum h]
      omega

theorem scanFold_entries (files : List XmlFile) :
    ∀ st : ScanState, (∀ p ∈ st.typeCounter, p.1 ≠ [] ∧ 0 < p.2) →
      ∀ p ∈ (files.foldl scanFile st).typeCounter, p.1 ≠ [] ∧ 0 < p.2 := by
  induction files with
  | nil => intro st h; exact h
  | cons f rest ih =>
      intro st h
      exact ih _ (scanFile_entries h)

theorem totalOf_eq_sum_contrib (files : List XmlFile) :
    totalOf files = (files.map fileContrib).sum := by
  unfold totalOf
  rw [scanFold_sum files ⟨[], 0⟩ keysNodup_nil]
  simp [sumValues]

theorem totalOf_append (l₁ l₂ : List XmlFile) :
    totalOf (l₁ ++ l₂) = totalOf l₁ + totalOf l₂ := by
  simp [totalOf_eq_sum_contrib]

/-!  Helper lemmas: the mtime fold of the signature engine. -/

theorem mtimeStep_ge (init : ℚ) (f : XmlFile) : init ≤ mtimeStep init f := by
  unfold mtimeStep
  split_ifs with h1 h2
  · exact le_of_lt h2
  · exact le_refl _
  · exact le_refl _

theorem mtimeStep_ge_mtime {init : ℚ} {f : XmlFile} (h : f.statOk = true) :
    f.mtime ≤ mtimeStep init f := by
  unfold mtimeStep
  rw [if_pos h]
  split_ifs with h2
  · exact le_refl _
  · exact le_of_not_lt h2

theorem mtimeFold_filter (files : List XmlFile) :
    ∀ init : ℚ,
      files.foldl mtimeStep init =
        (files.filter (fun f => f.statOk)).foldl mtimeStep init := by
  induction files with
  | nil => intro init; rfl
  | cons f rest ih =>
      intro init
      by_cases hs : f.statOk
      · simp only [List.foldl_cons, List.filter_cons, hs, if_pos]
        exact ih _
      · have hstep : mtimeStep init f = init := by simp [mtimeStep, hs]
        simp only [List.foldl_cons, List.filter_cons, hs, Bool.false_eq_true, if_neg,
          Bool.not_eq_true, hstep]
        exact ih _

theorem le_mtimeFold (files : List XmlFile) :
    ∀ init : ℚ, init ≤ files.foldl mtimeStep init := by
  induction files with
  | nil => intro init; exact le_refl _
  | cons f rest ih =>
      intro init
      exact le_trans (mtimeStep_ge init f) (ih _)

theorem mtimeFold_ge_mem (files : List XmlFile) :
    ∀ init : ℚ, ∀ f ∈ files, f.statOk = true → f.mtime ≤ files.foldl mtimeStep init := by
  induction files with
  | nil => intro init f hf; simp at hf
  | cons g rest ih =>
      intro init f hf hs
      rcases List.mem_cons.mp hf with rfl | hf'
      · exact le_trans (mtimeStep_ge_mtime hs) (le_mtimeFold rest _)
      · exact ih _ f hf' hs

theorem mtimeFold_attained (files : List XmlFile) :
    ∀ init : ℚ,
      files.foldl mtimeStep init = init ∨
        ∃ f ∈ files, f.statOk = true ∧ f.mtime = files.foldl mtimeStep init := by
  induction files with
  | nil => intro init; left; rfl
  | cons f rest ih =>
      intro init
      rcases ih (mtimeStep init f) with h | ⟨g, hg, hgs, hgm⟩
      · simp only [List.foldl_cons]
        by_cases hs : f.statOk
        · by_cases hlt : init < f.mtime
          · right
            refine ⟨f, List.mem_cons_self _ _, hs, ?_⟩
            rw [h]
            simp [mtimeStep, hs, hlt]
          · left
            rw [h]
            simp [mtimeStep, hs, hlt]
        · left
          rw [h]
          simp [mtimeStep, hs]
      · right
        exact ⟨g, List.mem_cons_of_mem _ hg, hgs, hgm⟩

/-!  Helper lemmas: the recursive directory walk. -/

mutual
theorem xmlFilesUnder_eq_filter (d : Dir) :
    xmlFilesUnder d = (allFilesUnder d).filter isXmlName := by
  cases d with
  | node name subdirs files =>
      simp [xmlFilesUnder, allFilesUnder, List.filter_append,
        xmlFilesUnderList_eq_filter subdirs]
theorem xmlFilesUnderList_eq_filter (ds : DirList) :
    xmlFilesUnderList ds = (allFilesUnderList ds).filter isXmlName := by
  cases ds with
  | nil => rfl
  | cons d ds =>
      simp [xmlFilesUnderList, allFilesUnderList, List.filter_append,
        xmlFilesUnder_eq_filter d, xmlFilesUnderList_eq_filter ds]
end

/-!  Helper lemmas: signature, scan and cache basics. -/

theorem computeSignature_empty {fs : Option Dir} (h : iterDefsXmlFiles fs = []) :
    computeSignature fs = (0, 0) := by
  unfold computeSignature
  rw [h]

theorem computeSignature_nonempty {fs : Option Dir} (h : iterDefsXmlFiles fs ≠ []) :
    computeSignature fs =
      ((iterDefsXmlFiles fs).length, latestMtime (iterDefsXmlFiles fs)) := by
  unfold computeSignature
  cases hl : iterDefsXmlFiles fs with
  | nil => exact absurd hl h
  | cons x xs => rfl

theorem cacheLookup_store_self (st : CacheState) (k : Str)
    (v : (Nat × ℚ) × DefsSummary) :
    cacheLookup (cacheStore st k v) k = some v := by
  simpa [cacheLookup, cacheStore] using pyDictFind_insert_self st.entries k v

theorem cacheGet_hit {fs : Option Dir} {key : Str} {st : CacheState}
    {cached : (Nat × ℚ) × DefsSummary} (hl : cacheLookup st key = some cached)
    (he : cached.1 = computeSignature fs) :
    cacheGet fs key st = (cached.2, st) := by
  unfold cacheGet
  rw [hl]
  simp only [if_pos he]

theorem cacheGet_miss_absent {fs : Option Dir} {key : Str} {st : CacheState}
    (hl : cacheLookup st key = none) :
    cacheGet fs key st =
      (scanDefs fs, cacheStore st key (computeSignature fs, scanDefs fs)) := by
  unfold cacheGet
  rw [hl]

theorem cacheGet_miss_stale {fs : Option Dir} {key : Str} {st : CacheState}
    {cached : (Nat × ℚ) × DefsSummary} (hl : cacheLookup st key = some cached)
    (he : cached.1 ≠ computeSignature fs) :
    cacheGet fs key st =
      (scanDefs fs, cacheStore st key (computeSignature fs, scanDefs fs)) := by
  unfold cacheGet
  rw [hl]
  simp only [if_neg he]

theorem cacheHit_true {fs : Option Dir} {key : Str} {st : CacheState}
    {cached : (Nat × ℚ) × DefsSummary} (hl : cacheLookup st key = some cached)
    (he : cached.1 = computeSignature fs) :
    cacheHit fs key st = true := by
  unfold cacheHit
  rw [hl]
  exact decide_eq_true he

theorem cacheLookup_mem {st : CacheState} {k : Str}
    {v : (Nat × ℚ) × DefsSummary} (h : cacheLookup st k = some v) :
    ∃ p ∈ st.entries, p.2 = v := by
  simp only [cacheLookup, pyDictFind, Option.map_eq_some'] at h
  obtain ⟨p, hp, hpv⟩ := h
  exact ⟨p, List.mem_of_find?_eq_some hp, hpv⟩

theorem cacheGet_result (fs : Option Dir) (key : Str) (st : CacheState)
    (h : CacheConsistent st) :
    ∃ fs' : Option Dir, (cacheGet fs key st).1 = scanDefs fs' := by
  match hl : cacheLookup st key with
  | none => exact ⟨fs, by rw [cacheGet_miss_absent hl]⟩
  | some cached =>
      by_cases he : cached.1 = computeSignature fs
      · obtain ⟨p, hp, hpv⟩ := cacheLookup_mem hl
        obtain ⟨fs', _, hsum⟩ := h p hp
        refine ⟨fs', ?_⟩
        rw [cacheGet_hit hl he]
        rw [← hpv] at *
        exact hsum
      · exact ⟨fs, by rw [cacheGet_miss_stale hl he]⟩

theorem enumAboutParses_le_one (fs : Option Dir) : enumAboutParses fs ≤ 1 := by
  match fs with
  | none => exact Nat.zero_le 1
  | some root =>
      simp only [enumAboutParses]
      split_ifs <;> omega

/-!  The claim theorems. -/

/-- Claim C9: once `get_total_ms_by_mod_name` has been called, every
subsequent call returns the identical cached mapping with the cache state
unchanged and zero reads of the metrics file, regardless of how the metrics
file has changed in between. -/
theorem c9_metrics_static_snapshot (f₁ f₂ : Option (Option Xml))
    (cache : Option (List (Str × Int))) :
    (getTotalMsByModName f₂ (getTotalMsByModName f₁ cache).2.1).1 =
        (getTotalMsByModName f₁ cache).1 ∧
    (getTotalMsByModName f₂ (getTotalMsByModName f₁ cache).2.1).2.1 =
        (getTotalMsByModName f₁ cache).2.1 ∧
    (getTotalMsByModName f₂ (getTotalMsByModName f₁ cache).2.1).2.2 = 0 ∧
    (∀ m : List (Str × Int), getTotalMsByModName f₂ (some m) = (m, some m, 0)) := by
  cases cache <;> simp [getTotalMsByModName]

/-- Claim C5: `total_defs` of a scan always equals the sum of its
`type_counts` values; the root-level and version-level Defs trees contribute
additively, and so does any split of the scanned file list; the same holds
for every summary `get` returns from a consistent cache. -/
theorem c5_aggregation_correct (fs : Option Dir) (root : Dir)
    (l₁ l₂ : List XmlFile) (key : Str) (st : CacheState) :
    (scanDefs fs).total_defs = sumValues (scanDefs fs).type_counts ∧
    (scanDefs (some root)).total_defs =
      totalOf (rootDefsFiles root) + totalOf (versionDefsFiles root) ∧
    totalOf (l₁ ++ l₂) = totalOf l₁ + totalOf l₂ ∧
    (CacheConsistent st →
      ((cacheGet fs key st).1).total_defs =
        sumValues ((cacheGet fs key st).1).type_counts) := by
  refine ⟨rfl, ?_, totalOf_append l₁ l₂, ?_⟩
  · show totalOf (iterDefsXmlFiles (some root)) =
      totalOf (rootDefsFiles root) + totalOf (versionDefsFiles root)
    rw [show iterDefsXmlFiles (some root) = rootDefsFiles root ++ versionDefsFiles root
      from rfl]
    exact totalOf_append _ _
  · intro hcons
    obtain ⟨fs', hres⟩ := cacheGet_result fs key st hcons
    rw [hres]
    rfl

/-- Witness for C5: the split of the zero-summary cache read on a fresh
cache satisfies the consistency hypothesis. -/
theorem c5_witness :
    ((cacheGet (some exResilRoot) ("k".toList) ⟨[]⟩).1).total_defs =
      sumValues ((cacheGet (some exResilRoot) ("k".toList) ⟨[]⟩).1).type_counts :=
  (c5_aggregation_correct (some exResilRoot) exResilRoot [] [] ("k".toList) ⟨[]⟩).2.2.2
    (fun e he => absurd he (by simp))

/-- Claim C7: a file whose parse fails contributes nothing to the scan fold
and the scan continues with the remaining files; the concrete mod with one
well-formed 3-child defs file and one malformed file yields
`total_defs = 3`, `files_scanned = 1`. -/
theorem c7_malformed_file_resilience :
    (∀ (st : ScanState) (pre post : List XmlFile) (bad : XmlFile),
      bad.parse = none →
      (pre ++ bad :: post).foldl scanFile st = (pre ++ post).foldl scanFile st) ∧
    scanDefs (some exResilRoot) =
      ⟨3, [(("ThingDef".toList), 2), (("RecipeDef".toList), 1)], 1⟩ := by
  constructor
  · intro st pre post bad hbad
    rw [List.foldl_append, List.foldl_append, List.foldl_cons,
      scanFile_parse_none hbad]
  · decide

/-- Witness for C7: dropping the concrete malformed file from the concrete
scan changes nothing. -/
theorem c7_witness :
    ([exGoodFile] ++ exBadFile :: []).foldl scanFile ⟨[], 0⟩ =
      ([exGoodFile] ++ []).foldl scanFile ⟨[], 0⟩ :=
  c7_malformed_file_resilience.1 ⟨[], 0⟩ [exGoodFile] [] exBadFile rfl

/-- Counterexample for C4: a mod whose single enumerated defs file cannot be
stat'd.  The claim says an unstat-able file "does not affect the result
(neither component of the returned signature)", yet the code counts it: the
signature is `(1, 0.0)` with the file present and `(0, 0.0)` with the file
removed, so the first component does change. -/
theorem c4_counterexample :
    (iterDefsXmlFiles (some exUnstatRoot)).length = 1 ∧
    (∀ f ∈ iterDefsXmlFiles (some exUnstatRoot), f.statOk = false) ∧
    computeSignature (some exUnstatRoot) = (1, 0) ∧
    iterDefsXmlFiles (some exUnstatRootWithout) = [] ∧
    computeSignature (some exUnstatRootWithout) = (0, 0) ∧
    ((1 : Nat), (0 : ℚ)) ≠ ((0 : Nat), (0 : ℚ)) := by
  decide

/-- Claim C4 as amended: the signature is `(0, 0.0)` when no file is
enumerated; otherwise it is the number of enumerated files (unstat-able ones
included) paired with the maximum, floored at `0.0`, of the mtimes of the
stat-able enumerated files — an unstat-able file is skipped in the mtime
maximum only. -/
theorem c4_signature_engine (fs : Option Dir) :
    (iterDefsXmlFiles fs = [] → computeSignature fs = (0, 0)) ∧
    (iterDefsXmlFiles fs ≠ [] →
      computeSignature fs =
        ((iterDefsXmlFiles fs).length, latestMtime (iterDefsXmlFiles fs)) ∧
      latestMtime (iterDefsXmlFiles fs) =
        latestMtime ((iterDefsXmlFiles fs).filter (fun f => f.statOk)) ∧
      (0 : ℚ) ≤ (computeSignature fs).2 ∧
      (∀ f ∈ iterDefsXmlFiles fs, f.statOk = true → f.mtime ≤ (computeSignature fs).2) ∧
      ((computeSignature fs).2 = 0 ∨
        ∃ f ∈ iterDefsXmlFiles fs, f.statOk = true ∧ f.mtime = (computeSignature fs).2)) := by
  constructor
  · exact computeSignature_empty
  · intro h
    have hs := computeSignature_nonempty h
    refine ⟨hs, mtimeFold_filter _ 0, ?_, ?_, ?_⟩
    · rw [hs]
      exact le_mtimeFold _ 0
    · intro f hf hok
      rw [hs]
      exact mtimeFold_ge_mem _ 0 f hf hok
    · rw [hs]
      exact mtimeFold_attained (iterDefsXmlFiles fs) 0

/-- Witness for C4: the amended signature shape at a mod with two
enumerated files, and the empty branch at a mod with none. -/
theorem c4_witness :
    computeSignature (some exResilRoot) =
      ((iterDefsXmlFiles (some exResilRoot)).length,
        latestMtime (iterDefsXmlFiles (some exResilRoot))) ∧
    computeSignature (some exUnstatRootWithout) = (0, 0) :=
  ⟨((c4_signature_engine (some exResilRoot)).2 (by decide)).1,
    (c4_signature_engine (some exUnstatRootWithout)).1 (by decide)⟩

/-- Claim C8: a successfully parsed file whose stripped, lower-cased root
tag is not `defs` contributes nothing; otherwise `files_scanned` grows by
one and each key's counter grows by the number of immediate children whose
stripped tag equals that key, the empty key staying untouched. -/
theorem c8_non_defs_root_skip (st : ScanState) (f : XmlFile) (root : Xml)
    (hparse : f.parse = some root) (hnodup : KeysNodup st.typeCounter) :
    (strLower (stripNs root.tag) ≠ ("defs".toList) → scanFile st f = st) ∧
    (strLower (stripNs root.tag) = ("defs".toList) →
      (scanFile st f).filesScanned = st.filesScanned + 1 ∧
      countOf (scanFile st f).typeCounter [] = countOf st.typeCounter [] ∧
      ∀ k : Str, k ≠ [] →
        countOf (scanFile st f).typeCounter k =
          countOf st.typeCounter k +
            root.children.countP (fun ch => stripNs ch.tag = k)) := by
  constructor
  · intro hd
    exact scanFile_not_defs hparse hd
  · intro hd
    rw [scanFile_defs hparse hd]
    refine ⟨rfl, ?_, ?_⟩
    · rw [countOf_childFold root.children st.typeCounter hnodup []]
      simp
    · intro k hk
      rw [countOf_childFold root.children st.typeCounter hnodup k, if_neg hk]

/-- Witness for C8: the concrete well-formed defs file bumps
`files_scanned` and counts its two `ThingDef` children. -/
theorem c8_witness :
    (scanFile ⟨[], 0⟩ exGoodFile).filesScanned = 0 + 1 ∧
    countOf (scanFile ⟨[], 0⟩ exGoodFile).typeCounter ("ThingDef".toList) =
      countOf ([] : List (Str × Nat)) ("ThingDef".toList) +
        (mkXml ("Defs") [mkXml ("ThingDef") [], mkXml ("ThingDef") [],
          mkXml ("RecipeDef") []]).children.countP
          (fun ch => stripNs ch.tag = ("ThingDef".toList)) := by
  have h := (c8_non_defs_root_skip ⟨[], 0⟩ exGoodFile
      (mkXml ("Defs") [mkXml ("ThingDef") [], mkXml ("ThingDef") [], mkXml ("RecipeDef") []])
      rfl keysNodup_nil).2 (by decide)
  exact ⟨h.1, h.2.2 ("ThingDef".toList) (by decide)⟩

theorem anyKey_iff {α β : Type} [DecidableEq α] (m : List (α × β)) (k : α) :
    m.any (fun p => p.1 = k) = true ↔ k ∈ pyDictKeys m := by
  simp [pyDictKeys, List.any_eq_true]

/-- Claim C1: when some declared version tag is available, the resolver
returns the directory mapped to the lexicographic maximum of the declared
and available tags; otherwise, when any version directory is available, the
directory of the lexicographic maximum available tag; otherwise nothing. -/
theorem c1_version_resolver (root : Dir) :
    ((∃ t ∈ declaredTags root, t ∈ pyDictKeys (findAvailableVersionDirs root)) →
      ∃ m ∈ declaredTags root,
        m ∈ pyDictKeys (findAvailableVersionDirs root) ∧
        (∀ x ∈ declaredTags root,
          x ∈ pyDictKeys (findAvailableVersionDirs root) → pairLe x m) ∧
        chooseVersionDir root = pyDictFind (findAvailableVersionDirs root) m ∧
        (pyDictFind (findAvailableVersionDirs root) m).isSome) ∧
    ((¬ ∃ t ∈ declaredTags root, t ∈ pyDictKeys (findAvailableVersionDirs root)) →
      findAvailableVersionDirs root ≠ [] →
      ∃ m ∈ pyDictKeys (findAvailableVersionDirs root),
        (∀ x ∈ pyDictKeys (findAvailableVersionDirs root), pairLe x m) ∧
        chooseVersionDir root = pyDictFind (findAvailableVersionDirs root) m ∧
        (pyDictFind (findAvailableVersionDirs root) m).isSome) ∧
    (findAvailableVersionDirs root = [] → chooseVersionDir root = none) := by
  have hunfold : chooseVersionDir root =
      (match pyMax? ((declaredTags root).filter
          (fun nv => (findAvailableVersionDirs root).any (fun p => p.1 = nv))) with
       | some chosen => pyDictFind (findAvailableVersionDirs root) chosen
       | none =>
           match pyMax? (pyDictKeys (findAvailableVersionDirs root)) with
           | some chosen => pyDictFind (findAvailableVersionDirs root) chosen
           | none => none) := rfl
  have hmem : ∀ x : Nat × Nat,
      x ∈ (declaredTags root).filter
          (fun nv => (findAvailableVersionDirs root).any (fun p => p.1 = nv)) ↔
        (x ∈ declaredTags root ∧ x ∈ pyDictKeys (findAvailableVersionDirs root)) := by
    intro x
    rw [List.mem_filter]
    constructor
    · rintro ⟨h1, h2⟩
      exact ⟨h1, (anyKey_iff _ _).mp h2⟩
    · rintro ⟨h1, h2⟩
      exact ⟨h1, (anyKey_iff _ _).mpr h2⟩
  refine ⟨?_, ?_, ?_⟩
  · rintro ⟨t, ht1, ht2⟩
    have htc := (hmem t).mpr ⟨ht1, ht2⟩
    match hmax : pyMax? ((declaredTags root).filter
        (fun nv => (findAvailableVersionDirs root).any (fun p => p.1 = nv))) with
    | none =>
        rw [pyMax?_eq_none] at hmax
        rw [hmax] at htc
        exact absurd htc (List.not_mem_nil t)
    | some m =>
        obtain ⟨hm1, hm2⟩ := (hmem m).mp (pyMax?_mem hmax)
        refine ⟨m, hm1, hm2, ?_, ?_, pyDictFind_isSome_of_mem_keys hm2⟩
        · intro x hx1 hx2
          exact pyMax?_ge hmax x ((hmem x).mpr ⟨hx1, hx2⟩)
        · rw [hunfold, hmax]
  · intro hno hne
    have hcnil : (declaredTags root).filter
        (fun nv => (findAvailableVersionDirs root).any (fun p => p.1 = nv)) = [] := by
      cases hc : (declaredTags root).filter
          (fun nv => (findAvailableVersionDirs root).any (fun p => p.1 = nv)) with
      | nil => rfl
      | cons c cs =>
          obtain ⟨h1, h2⟩ := (hmem c).mp (hc ▸ List.mem_cons_self c cs)
          exact absurd ⟨c, h1, h2⟩ hno
    have hkeysne : pyDictKeys (findAvailableVersionDirs root) ≠ [] := by
      intro hk
      exact hne (List.map_eq_nil_iff.mp hk)
    match hmax : pyMax? (pyDictKeys (findAvailableVersionDirs root)) with
    | none =>
        rw [pyMax?_eq_none] at hmax
        exact absurd hmax hkeysne
    | some m =>
        refine ⟨m, pyMax?_mem hmax, pyMax?_ge hmax, ?_,
          pyDictFind_isSome_of_mem_keys (pyMax?_mem hmax)⟩
        rw [hunfold, pyMax?_eq_none.mpr hcnil, hmax]
  · intro hav
    have hcnil : (declaredTags root).filter
        (fun nv => (findAvailableVersionDirs root).any (fun p => p.1 = nv)) = [] := by
      apply List.filter_eq_nil_iff.mpr
      intro a _
      rw [hav]
      simp
    rw [hunfold, pyMax?_eq_none.mpr hcnil, hav]
    rfl

/-- Witness for C1: the spec's precedence example (available 1.3/1.4/1.5,
declared 1.4 — resolution picks 1.4, not 1.5) and its fallback example (no
manifest, available 1.2/1.5/1.3 — resolution picks 1.5). -/
theorem c1_witness :
    (∃ m ∈ declaredTags exPrecRoot,
      m ∈ pyDictKeys (findAvailableVersionDirs exPrecRoot) ∧
      (∀ x ∈ declaredTags exPrecRoot,
        x ∈ pyDictKeys (findAvailableVersionDirs exPrecRoot) → pairLe x m) ∧
      chooseVersionDir exPrecRoot = pyDictFind (findAvailableVersionDirs exPrecRoot) m ∧
      (pyDictFind (findAvailableVersionDirs exPrecRoot) m).isSome) ∧
    (∃ m ∈ pyDictKeys (findAvailableVersionDirs exFbRoot),
      (∀ x ∈ pyDictKeys (findAvailableVersionDirs exFbRoot), pairLe x m) ∧
      chooseVersionDir exFbRoot = pyDictFind (findAvailableVersionDirs exFbRoot) m ∧
      (pyDictFind (findAvailableVersionDirs exFbRoot) m).isSome) ∧
    chooseVersionDir exPrecRoot = some (emptyD ("1.4")) ∧
    chooseVersionDir exFbRoot = some (emptyD ("1.5")) := by
  refine ⟨(c1_version_resolver exPrecRoot).1 ⟨(1, 4), by decide, by decide⟩,
    (c1_version_resolver exFbRoot).2.1 ?_ (by decide), by decide, by decide⟩
  rintro ⟨t, ht1, _⟩
  have : declaredTags exFbRoot = [] := by decide
  rw [this] at ht1
  exact List.not_mem_nil t ht1

/-- Claim C6: the enumerated files are exactly the `.xml`-named files (case
insensitively) under the root-level `Defs` tree, followed by those under the
`Defs` subtree of the single resolver-chosen version directory; at most one
version directory contributes (the resolver returns at most one), both trees
contribute when both exist, and a mod with neither, or a nonexistent path,
yields nothing. -/
theorem c6_defs_file_enumerator (root : Dir) :
    iterDefsXmlFiles (some root) =
      (match findCaseInsensitiveDir root ("Defs".toList) with
       | some d => (allFilesUnder d).filter isXmlName
       | none => []) ++
      (match chooseVersionDir root with
       | some vd =>
           (match findCaseInsensitiveDir vd ("Defs".toList) with
            | some d => (allFilesUnder d).filter isXmlName
            | none => [])
       | none => []) ∧
    (findCaseInsensitiveDir root ("Defs".toList) = none →
      (∀ vd, chooseVersionDir root = some vd →
        findCaseInsensitiveDir vd ("Defs".toList) = none) →
      iterDefsXmlFiles (some root) = []) ∧
    iterDefsXmlFiles none = [] := by
  have h1 : rootDefsFiles root =
      (match findCaseInsensitiveDir root ("Defs".toList) with
       | some d => (allFilesUnder d).filter isXmlName
       | none => []) := by
    unfold rootDefsFiles
    cases findCaseInsensitiveDir root ("Defs".toList) with
    | none => rfl
    | some d => exact xmlFilesUnder_eq_filter d
  have h2inner : ∀ vd : Dir,
      (match findCaseInsensitiveDir vd ("Defs".toList) with
       | some d => xmlFilesUnder d
       | none => []) =
      (match findCaseInsensitiveDir vd ("Defs".toList) with
       | some d => (allFilesUnder d).filter isXmlName
       | none => []) := by
    intro vd
    cases findCaseInsensitiveDir vd ("Defs".toList) with
    | none => rfl
    | some d => exact xmlFilesUnder_eq_filter d
  have h2 : versionDefsFiles root =
      (match chooseVersionDir root with
       | some vd =>
           (match findCaseInsensitiveDir vd ("Defs".toList) with
            | some d => (allFilesUnder d).filter isXmlName
            | none => [])
       | none => []) := by
    unfold versionDefsFiles
    cases chooseVersionDir root with
    | none => rfl
    | some vd => exact h2inner vd
  refine ⟨?_, ?_, rfl⟩
  · show rootDefsFiles root ++ versionDefsFiles root = _
    rw [h1, h2]
  · intro hroot hver
    show rootDefsFiles root ++ versionDefsFiles root = []
    have e1 : rootDefsFiles root = [] := by
      unfold rootDefsFiles
      rw [hroot]
    have e2 : versionDefsFiles root = [] := by
      unfold versionDefsFiles
      cases hv : chooseVersionDir root with
      | none => rfl
      | some vd =>
          show (match findCaseInsensitiveDir vd ("Defs".toList) with
            | some d => xmlFilesUnder d
            | none => []) = []
          rw [hver vd hv]
    rw [e1, e2]
    rfl

/-- Witness for C6: a mod with no root `Defs` and a chosen version folder
with no `Defs` enumerates nothing. -/
theorem c6_witness : iterDefsXmlFiles (some exNoDefsRoot) = [] := by
  apply (c6_defs_file_enumerator exNoDefsRoot).2.1 (by decide)
  intro vd hvd
  have hch : chooseVersionDir exNoDefsRoot = some (emptyD ("1.0")) := by decide
  rw [hch] at hvd
  injection hvd with h
  rw [← h]
  decide

/-- Counterexample for C2: a mod holding only `About/About.xml`.  After a
first call, the second identical call finds a stored entry with an equal
signature and returns the stored summary — yet it performs one `ET.parse`
invocation (on `About.xml`, while the signature computation runs the
enumerator), so it does not parse zero files as the claim states. -/
theorem c2_counterexample :
    cacheHit (some exAboutOnlyRoot) ("k".toList)
        (cacheGet (some exAboutOnlyRoot) ("k".toList) ⟨[]⟩).2 = true ∧
    (cacheGet (some exAboutOnlyRoot) ("k".toList)
        (cacheGet (some exAboutOnlyRoot) ("k".toList) ⟨[]⟩).2).1 =
      (cacheGet (some exAboutOnlyRoot) ("k".toList) ⟨[]⟩).1 ∧
    (cacheGetParses (some exAboutOnlyRoot) ("k".toList)
          (cacheGet (some exAboutOnlyRoot) ("k".toList) ⟨[]⟩).2).1 +
        (cacheGetParses (some exAboutOnlyRoot) ("k".toList)
          (cacheGet (some exAboutOnlyRoot) ("k".toList) ⟨[]⟩).2).2 = 1 := by
  decide

/-- Claim C2 as amended: on a stored entry with an equal signature, `get`
returns the stored summary with the cache unchanged and parses no Defs XML
file (at most one `ET.parse`, on `About.xml`, happens while recomputing the
signature); two successive calls with identical filesystem state return
identical results and the second parses no Defs XML file. -/
theorem c2_cache_idempotence (fs : Option Dir) (key : Str) (st : CacheState) :
    (∀ cached, cacheLookup st key = some cached →
      cached.1 = computeSignature fs →
      cacheGet fs key st = (cached.2, st) ∧
      cacheGetParses fs key st = (enumAboutParses fs, 0) ∧
      enumAboutParses fs ≤ 1) ∧
    (cacheGet fs key (cacheGet fs key st).2 =
      ((cacheGet fs key st).1, (cacheGet fs key st).2) ∧
     (cacheGetParses fs key (cacheGet fs key st).2).2 = 0) := by
  constructor
  · intro cached hl he
    refine ⟨cacheGet_hit hl he, ?_, enumAboutParses_le_one fs⟩
    unfold cacheGetParses
    rw [if_pos (cacheHit_true hl he)]
  · have hsecond : ∀ st' : CacheState,
        cacheLookup st' key = some (computeSignature fs, scanDefs fs) →
        cacheGet fs key st' = (scanDefs fs, st') ∧
          (cacheGetParses fs key st').2 = 0 := by
      intro st' hl'
      refine ⟨cacheGet_hit hl' rfl, ?_⟩
      unfold cacheGetParses
      rw [if_pos (cacheHit_true hl' rfl)]
    match hl : cacheLookup st key with
    | none =>
        rw [cacheGet_miss_absent hl]
        exact hsecond _ (cacheLookup_store_self st key _)
    | some cached =>
        by_cases he : cached.1 = computeSignature fs
        · rw [cacheGet_hit hl he]
          have h := @cacheGet_hit fs key st cached hl he
          constructor
          · rw [h]
          · unfold cacheGetParses
            rw [if_pos (cacheHit_true hl he)]
        · rw [cacheGet_miss_stale hl he]
          exact hsecond _ (cacheLookup_store_self st key _)

/-- Witness for C2: the second call on the About-only mod takes the cached
path, returns the stored zero summary with the state unchanged. -/
theorem c2_witness :
    cacheGet (some exAboutOnlyRoot) ("k".toList)
        (cacheGet (some exAboutOnlyRoot) ("k".toList) ⟨[]⟩).2 =
      ((⟨0, [], 0⟩ : DefsSummary),
        (cacheGet (some exAboutOnlyRoot) ("k".toList) ⟨[]⟩).2) ∧
    cacheGetParses (some exAboutOnlyRoot) ("k".toList)
        (cacheGet (some exAboutOnlyRoot) ("k".toList) ⟨[]⟩).2 =
      (enumAboutParses (some exAboutOnlyRoot), 0) := by
  have h := (c2_cache_idempotence (some exAboutOnlyRoot) ("k".toList)
      (cacheGet (some exAboutOnlyRoot) ("k".toList) ⟨[]⟩).2).1
      (((0 : Nat), (0 : ℚ)), (⟨0, [], 0⟩ : DefsSummary)) (by decide) (by decide)
  exact ⟨h.1, h.2.1⟩

/-- Claim C10: every key of `type_counts` is a non-empty string and every
stored count is strictly positive, both for direct scans and for every
summary `get` returns from a consistent cache. -/
theorem c10_type_counts_positive :
    (∀ (fs : Option Dir) (k : Str) (v : Nat),
      (k, v) ∈ (scanDefs fs).type_counts → k ≠ [] ∧ 0 < v) ∧
    (∀ (fs : Option Dir) (key : Str) (st : CacheState), CacheConsistent st →
      ∀ (k : Str) (v : Nat),
        (k, v) ∈ ((cacheGet fs key st).1).type_counts → k ≠ [] ∧ 0 < v) := by
  have hscan : ∀ (fs : Option Dir) (k : Str) (v : Nat),
      (k, v) ∈ (scanDefs fs).type_counts → k ≠ [] ∧ 0 < v := by
    intro fs k v hm
    exact scanFold_entries (iterDefsXmlFiles fs) ⟨[], 0⟩
      (fun p hp => absurd hp (List.not_mem_nil p)) (k, v) hm
  refine ⟨hscan, ?_⟩
  intro fs key st hcons k v hm
  obtain ⟨fs', hres⟩ := cacheGet_result fs key st hcons
  rw [hres] at hm
  exact hscan fs' k v hm

/-- Witness for C10: the `ThingDef` entry of the concrete scan. -/
theorem c10_witness : ("ThingDef".toList : Str) ≠ [] ∧ 0 < 2 :=
  c10_type_counts_positive.1 (some exResilRoot) ("ThingDef".toList) 2 (by decide)

end RimSort
